import Mathlib

/-!
A verification development for the AArch64 universal native invoker
(`universalNativeInvoker_aarch64.cpp`): the context-buffer adapter stub
generator (`ProgrammableInvoker::Generator::generate`) and the full
downcall stub generator (`NativeInvokerGenerator::generate`).

The code under `src/` is embedded shallowly: address arithmetic and the
copy loop become executable Lean functions on explicit machine states;
the instruction stream emitted by the full downcall generator becomes a
concrete list of abstract events transcribed in emission order; helper
components whose sources are not part of the repository snapshot
(`ArgumentShuffle`, `RegSpiller`) are modelled from the specification
and marked as such in their doc comments.
-/

namespace UNI

/-- The machine word size `wordSize` on AArch64: 8 bytes. -/
def wordSize : Nat := 8

/-- The constant `LogBytesPerWord` on a 64-bit target: 3. -/
def logBytesPerWord : Nat := 3

/-- The constant `LogBytesPerInt`: 2. -/
def logBytesPerInt : Nat := 2

/-- HotSpot `align_up(x, a)` for natural `x` and positive alignment `a`:
round `x` up to the next multiple of `a`. -/
def align_up (x a : Nat) : Nat := ((x + a - 1) / a) * a

/-- The stack-size rounding as emitted by the adapter stub
(`add rscratch2, Rstack_size, align-1` followed by
`andr rscratch2, rscratch2, -align`): 64-bit two's-complement
`-a` is `2^64 - a`, and the `add`/`and` operate modulo `2^64`. -/
def roundStackSize (stackSizeBytes alignBytes : Nat) : Nat :=
  ((stackSizeBytes + (alignBytes - 1)) % 2 ^ 64) &&& ((2 ^ 64 - alignBytes) % 2 ^ 64)

/-- Masking with `2^64 - 2^k` clears the low `k` bits of a 64-bit value. -/
theorem land_note (k x : Nat) (hk : k ≤ 64) (hx : x < 2 ^ 64) :
    x &&& (2 ^ 64 - 2 ^ k) = 2 ^ k * (x / 2 ^ k) := by
  have hmask : (2 : Nat) ^ 64 - 2 ^ k = (2 ^ (64 - k) - 1) <<< k := by
    rw [Nat.shiftLeft_eq, Nat.sub_mul, one_mul, ← pow_add, Nat.sub_add_cancel hk]
  have hrhs : 2 ^ k * (x / 2 ^ k) = (x >>> k) <<< k := by
    rw [Nat.shiftLeft_eq, Nat.shiftRight_eq_div_pow, Nat.mul_comm]
  rw [hmask, hrhs]
  apply Nat.eq_of_testBit_eq
  intro j
  rw [Nat.testBit_land, Nat.testBit_shiftLeft, Nat.testBit_shiftLeft,
    Nat.testBit_two_pow_sub_one, Nat.testBit_shiftRight]
  by_cases hjk : k ≤ j
  · simp only [hjk, decide_True, Bool.true_and]
    by_cases hj64 : j < 64
    · have hlt : j - k < 64 - k := by omega
      simp [hlt, Nat.add_sub_cancel' hjk]
    · have h1 : x.testBit j = false :=
        Nat.testBit_eq_false_of_lt
          (lt_of_lt_of_le hx (Nat.pow_le_pow_right (by norm_num) (by omega)))
      have h2 : x.testBit (k + (j - k)) = false := by
        rw [Nat.add_sub_cancel' hjk]; exact h1
      simp [h1, h2]
  · simp [hjk]

/-- The word count `Rwords` as computed by
`lsr Rwords, Rstack_size, LogBytesPerWord`. -/
def wordsFor (stackSizeBytes : Nat) : Nat := stackSizeBytes >>> logBytesPerWord

/-- The adapter's stack-argument copy loop
(`cbz Rwords, Ldone; ldr Rtmp, [Rsrc_ptr], #8; str Rtmp, [Rdst_ptr], #8;
sub Rwords, Rwords, 1; b Lnext`): copies `words` machine words forward,
from word addresses `srcPtr, srcPtr+1, ...` to `dstPtr, dstPtr+1, ...`,
terminating when the remaining word count reaches zero.
Memory is word-addressed. -/
def copyLoop : Nat → Nat → Nat → (Nat → Nat) → (Nat → Nat)
  | 0, _, _, mem => mem
  | w + 1, srcPtr, dstPtr, mem =>
      copyLoop w (srcPtr + 1) (dstPtr + 1) (Function.update mem dstPtr (mem srcPtr))

theorem copyLoop_spec (w : Nat) : ∀ s d mem, (d + w ≤ s ∨ s + w ≤ d) →
    (∀ j < w, copyLoop w s d mem (d + j) = mem (s + j)) ∧
    (∀ a, (∀ j < w, a ≠ d + j) → copyLoop w s d mem a = mem a) := by
  induction w with
  | zero => exact fun s d mem _ => ⟨fun j hj => absurd hj (Nat.not_lt_zero j), fun a _ => rfl⟩
  | succ w ih =>
    intro s d mem hdisj
    have hdisj' : (d + 1) + w ≤ s + 1 ∨ (s + 1) + w ≤ d + 1 := by omega
    obtain ⟨ih1, ih2⟩ := ih (s + 1) (d + 1) (Function.update mem d (mem s)) hdisj'
    constructor
    · intro j hj
      match j with
      | 0 =>
        have hne : ∀ i < w, d + 0 ≠ (d + 1) + i := by omega
        rw [show copyLoop (w + 1) s d mem = copyLoop w (s + 1) (d + 1)
              (Function.update mem d (mem s)) from rfl,
          ih2 (d + 0) hne]
        simp [Function.update]
      | j' + 1 =>
        have hj' : j' < w := by omega
        have : d + (j' + 1) = (d + 1) + j' := by omega
        rw [show copyLoop (w + 1) s d mem = copyLoop w (s + 1) (d + 1)
              (Function.update mem d (mem s)) from rfl,
          this, ih1 j' hj']
        have hsd : (s + 1) + j' ≠ d := by omega
        have : (s + 1) + j' = s + (j' + 1) := by omega
        rw [Function.update_noteq hsd, this]
    · intro a ha
      have ha' : ∀ j < w, a ≠ (d + 1) + j := by
        intro j hj
        have := ha (j + 1) (by omega)
        omega
      have had : a ≠ d := by
        have := ha 0 (by omega)
        omega
      rw [show copyLoop (w + 1) s d mem = copyLoop w (s + 1) (d + 1)
            (Function.update mem d (mem s)) from rfl,
        ih2 a ha', Function.update_noteq had]

/-- Fixed prolog slots of the downcall stub frame (in 4-byte ints):
`rfp_off, rfp_off2, lr_off, lr_off2` — the `framesize` enumerator value. -/
def baseFrameSlots : Nat := 4

/-- The slot count `_framesize` as computed by `NativeInvokerGenerator::generate`:
`align_up(framesize + (spill_size_bytes >> LogBytesPerInt) + out_arg_stack_slots, 4)`. -/
def totalFrameSlots (spillSizeBytes outArgStackSlots : Nat) : Nat :=
  align_up (baseFrameSlots + (spillSizeBytes >>> logBytesPerInt) + outArgStackSlots) 4

theorem align_up_dvd (x a : Nat) : a ∣ align_up x a := Dvd.intro_left _ rfl

/-- The effect of `ubfx(x, x, 0, w)`: zero-extension of the low `w` bits. -/
def ubfx (w v : Nat) : Nat := v % 2 ^ w

/-- The effect of `sbfx(x, x, 0, w)`: sign-extension of the low `w` bits to the 64-bit
register width, on register values represented as naturals below `2^64`. -/
def sbfx (w v : Nat) : Nat :=
  if v % 2 ^ w < 2 ^ (w - 1) then v % 2 ^ w else 2 ^ 64 - 2 ^ w + v % 2 ^ w

/-- The effect of `c2bool(r0)`: normalize a boolean result to 0/1 from the low byte. -/
def c2bool (v : Nat) : Nat := if v % 2 ^ 8 = 0 then 0 else 1

/-- Two's-complement reading of the low `w` bits of a register value. -/
def asSigned (w v : Nat) : Int :=
  if v % 2 ^ w < 2 ^ (w - 1) then ((v % 2 ^ w : Nat) : Int)
  else ((v % 2 ^ w : Nat) : Int) - ((2 ^ w : Nat) : Int)

theorem asSigned64_lo (x : Nat) (hx : x < 2 ^ 63) : asSigned 64 x = (x : Int) := by
  unfold asSigned
  have h1 : x % 2 ^ 64 = x := Nat.mod_eq_of_lt (by omega)
  rw [h1]
  rw [if_pos (by norm_num; omega)]

theorem asSigned64_hi (x : Nat) (hx1 : 2 ^ 63 ≤ x) (hx2 : x < 2 ^ 64) :
    asSigned 64 x = (x : Int) - 2 ^ 64 := by
  unfold asSigned
  have h1 : x % 2 ^ 64 = x := Nat.mod_eq_of_lt hx2
  rw [h1]
  rw [if_neg (by norm_num; omega)]
  norm_num

/-- Applying `sbfx` is the sign-extension of the low `w` bits to the full 64-bit
register width: the two's-complement value is preserved. -/
theorem asSigned_sbfx (w v : Nat) (h1 : 0 < w) (h2 : w < 64) :
    asSigned 64 (sbfx w v) = asSigned w v := by
  have hw2 : (2:Nat) ^ w < 2 ^ 64 := Nat.pow_lt_pow_right (by norm_num) h2
  have hw63 : (2:Nat) ^ (w - 1) ≤ 2 ^ 62 := Nat.pow_le_pow_right (by norm_num) (by omega)
  have ha : (2:Nat) ^ w = 2 * 2 ^ (w - 1) := by
    conv_lhs => rw [show w = (w - 1) + 1 by omega]
    ring
  have hr : v % 2 ^ w < 2 ^ w := Nat.mod_lt _ (by positivity)
  by_cases hc : v % 2 ^ w < 2 ^ (w - 1)
  · rw [sbfx, if_pos hc, asSigned64_lo _ (by omega), asSigned, if_pos hc]
  · have hx1 : 2 ^ 63 ≤ 2 ^ 64 - 2 ^ w + v % 2 ^ w := by omega
    have hx2 : 2 ^ 64 - 2 ^ w + v % 2 ^ w < 2 ^ 64 := by omega
    rw [sbfx, if_neg hc, asSigned64_hi _ hx1 hx2, asSigned, if_neg hc]
    omega

/-- The `BasicType` values distinguished by the return-value adjustment
switch, plus representative reference types that reach the fatal
`ShouldNotReachHere()` default. -/
inductive BasicTypeM where
  | t_boolean | t_char | t_byte | t_short | t_int | t_long
  | t_float | t_double | t_void | t_object | t_array | t_address
deriving DecidableEq

/-- The return-value adjustment switch after the native call
(`switch (_ret_bt)` in `NativeInvokerGenerator::generate`), acting on the
integer return register `r0`; `none` models the fatal
`ShouldNotReachHere()` default.  For `T_FLOAT`/`T_DOUBLE` the result is in
`v0` and `r0` is not adjusted. -/
def adjustReturn : BasicTypeM → Nat → Option Nat
  | .t_boolean, v => some (c2bool v)
  | .t_char, v => some (ubfx 16 v)
  | .t_byte, v => some (sbfx 8 v)
  | .t_short, v => some (sbfx 16 v)
  | .t_int, v => some (sbfx 32 v)
  | .t_double, v => some v
  | .t_float, v => some v
  | .t_void, v => some v
  | .t_long, v => some v
  | _, _ => none

/-- A `VMReg` entry of the output-register list: a concrete register slot
or the invalid register (`!is_valid()`). -/
inductive VMRegM where
  | bad
  | reg (idx : Nat)
deriving DecidableEq

/-- The predicate `VMReg::is_valid()`. -/
def VMRegM.valid : VMRegM → Bool
  | .bad => false
  | .reg _ => true

/-- The construction-time assertion of `NativeInvokerGenerator`:
`_output_registers.length() <= 1 || (_output_registers.length() == 2 &&
!_output_registers.at(1)->is_valid())` ("no multi-reg returns"). -/
def outputRegistersOk (rs : List VMRegM) : Bool :=
  decide (rs.length ≤ 1) || (rs.length == 2 && !(rs.getD 1 .bad).valid)

/-- Modelled from the spec: the `RegSpiller` (§4.2), whose source file is
not part of this repository snapshot (only its use sites are).
`spill(offset)` stores each return-value location, in order, to
consecutive words of the spill region starting at the given frame offset. -/
def spillRegs : List Nat → Nat → (Nat → Int) → (Nat → Int) → (Nat → Int)
  | [], _, _, frame => frame
  | r :: rs, o, regs, frame =>
      spillRegs rs (o + 1) regs (Function.update frame o (regs r))

/-- Modelled from the spec: the `RegSpiller`'s `fill(offset)` reloads each
return-value location, in order, from consecutive words of the spill
region starting at the given frame offset. -/
def fillRegs : List Nat → Nat → (Nat → Int) → (Nat → Int) → (Nat → Int)
  | [], _, regs, _ => regs
  | r :: rs, o, regs, frame =>
      fillRegs rs (o + 1) (Function.update regs r (frame o)) frame

theorem spillRegs_lt (rs : List Nat) : ∀ o regs frame a, a < o →
    spillRegs rs o regs frame a = frame a := by
  induction rs with
  | nil => intro o regs frame a _; rfl
  | cons r rs ih =>
    intro o regs frame a ha
    show spillRegs rs (o + 1) regs (Function.update frame o (regs r)) a = frame a
    rw [ih (o + 1) regs _ a (by omega), Function.update_noteq (by omega)]

theorem fill_spill_roundtrip (rs : List Nat) : ∀ o regs frame,
    fillRegs rs o regs (spillRegs rs o regs frame) = regs := by
  induction rs with
  | nil => intro o regs frame; rfl
  | cons r rs ih =>
    intro o regs frame
    show fillRegs rs (o + 1)
        (Function.update regs r
          (spillRegs rs (o + 1) regs (Function.update frame o (regs r)) o))
        (spillRegs rs (o + 1) regs (Function.update frame o (regs r))) = regs
    rw [spillRegs_lt rs (o + 1) regs _ o (by omega), Function.update_same,
      Function.update_eq_self, ih]

/-- Branch labels of the downcall stub. -/
inductive Lbl where
  | afterSafepointPoll | safepointSlow | reguard | afterReguard
deriving DecidableEq

/-- External runtime services called from the slow paths. -/
inductive Svc where
  | checkSpecialConditionForNativeTrans | reguardYellowPages
deriving DecidableEq

/-- Thread execution states stored by the stub. -/
inductive TState where
  | inNative | inNativeTrans | inJava
deriving DecidableEq

/-- Abstract events of the instruction stream emitted by
`NativeInvokerGenerator::generate`, with the payloads the claims are
about: the code position captured for `the_pc`, the gc-map key and its
set of oop-holding slots, the thread state stored and whether the store
is release-ordered (`stlrw`) or plain (`strw`), the spill-region offsets,
the runtime services invoked and the branch structure. -/
inductive Ev where
  | enter
  | subSp
  | setLastJavaFrame (pcOffset : Nat)
  | addGcMap (pcOffset : Nat) (oopSlots : List Nat)
  | threadStateStore (st : TState) (release : Bool)
  | argShuffle
  | callNative
  | retAdjust
  | membarFull
  | verifySve
  | safepointPollBranch (target : Lbl)
  | suspendFlagsBranch (target : Lbl)
  | bindLabel (l : Lbl)
  | stackGuardBranch (target : Lbl)
  | resetLastJavaFrame
  | leave
  | ret
  | spill (offset : Nat)
  | fill (offset : Nat)
  | movArg0Thread
  | callRuntime (svc : Svc)
  | branch (target : Lbl)
deriving DecidableEq

/-- The constant `spill_offset` in `NativeInvokerGenerator::generate`. -/
def spill_offset : Nat := 0

/-- The event stream emitted by `NativeInvokerGenerator::generate`, in
emission order.  Code positions are event indices; `the_pc` is the single
position captured right after the prolog (`address the_pc = __ pc()`) and
is used both by `set_last_Java_frame` and as the `add_gc_map` key, exactly
as in the source.  `new OopMap(_framesize, 0)` with no subsequent
`set_oop` call is the empty oop-slot list. -/
def genTrace : List Ev :=
  let thePc : Nat := 2
  [ .enter,
    .subSp,
    .setLastJavaFrame thePc,
    .addGcMap thePc [],
    .threadStateStore .inNative true,
    .argShuffle,
    .callNative,
    .retAdjust,
    .threadStateStore .inNativeTrans false,
    .membarFull,
    .verifySve,
    .safepointPollBranch .safepointSlow,
    .suspendFlagsBranch .safepointSlow,
    .bindLabel .afterSafepointPoll,
    .threadStateStore .inJava true,
    .stackGuardBranch .reguard,
    .bindLabel .afterReguard,
    .resetLastJavaFrame,
    .leave,
    .ret,
    .bindLabel .safepointSlow,
    .spill spill_offset,
    .movArg0Thread,
    .callRuntime .checkSpecialConditionForNativeTrans,
    .fill spill_offset,
    .branch .afterSafepointPoll,
    .bindLabel .reguard,
    .spill spill_offset,
    .callRuntime .reguardYellowPages,
    .fill spill_offset,
    .branch .afterReguard ]

/-- Is this event the publication of the last-known-managed-frame triple? -/
def Ev.isPublishFrame : Ev → Bool
  | .setLastJavaFrame _ => true
  | _ => false

/-- Is this event the store of the "native" execution state? -/
def Ev.isNativeStore : Ev → Bool
  | .threadStateStore .inNative _ => true
  | _ => false

/-- Is this event the store of the "managed" (in-Java) execution state? -/
def Ev.isJavaStore : Ev → Bool
  | .threadStateStore .inJava _ => true
  | _ => false

/-- Is this event the clearing of the last-known-managed-frame triple? -/
def Ev.isResetFrame : Ev → Bool
  | .resetLastJavaFrame => true
  | _ => false

/-- The gc maps registered in the trace, as (code-offset, oop-slot) pairs. -/
def gcMaps : List (Nat × List Nat) :=
  genTrace.filterMap fun e =>
    match e with
    | .addGcMap o s => some (o, s)
    | _ => none

/-- The code positions recorded as the last-known-managed-frame pc. -/
def publishedPcs : List Nat :=
  genTrace.filterMap fun e =>
    match e with
    | .setLastJavaFrame o => some o
    | _ => none

/-- Machine state for the context-buffer adapter stub
(`ProgrammableInvoker::Generator::generate`): the registers the stub's
prologue touches, plus memory over integer byte addresses, where
`mem a` is the 8-byte word based at address `a` (all stack addresses
involved are 8 bytes apart or more). -/
structure AdapterState where
  c_rarg0 : Int
  rctx : Int
  rstack_size : Int
  sp : Int
  rfp : Int
  lr : Int
  mem : Int → Int

/-- Byte offsets of the `BufferLayout` fields used by the adapter
prologue, and the ABI's `_stack_alignment_bytes`. -/
structure AdapterParams where
  stack_args_bytes : Int
  stack_alignment_bytes : Nat

/-- The effect of `MacroAssembler::enter()`:
`stp(rfp, lr, Address(pre(sp, -2 * wordSize))); mov(rfp, sp)`. -/
def enterStep (s : AdapterState) : AdapterState :=
  { s with
    sp := s.sp - 2 * (wordSize : Int)
    mem := Function.update (Function.update s.mem (s.sp - 2 * (wordSize : Int)) s.rfp)
             (s.sp - (wordSize : Int)) s.lr
    rfp := s.sp - 2 * (wordSize : Int) }

/-- The adapter stub from entry to the stack allocation
(`init_and_alloc_stack` / `allocate_stack`):
`enter(); mov(Rctx, c_rarg0); str(Rctx, Address(pre(sp, -2 * wordSize)));
ldr(Rstack_size, Address(Rctx, stack_args_bytes));
add(rscratch2, Rstack_size, align - 1); andr(rscratch2, rscratch2, -align);
sub(sp, sp, rscratch2)`. -/
def adapterPrologue (p : AdapterParams) (s0 : AdapterState) : AdapterState :=
  let s1 := enterStep s0
  let s2 := { s1 with rctx := s1.c_rarg0 }
  let s3 := { s2 with
              sp := s2.sp - 2 * (wordSize : Int)
              mem := Function.update s2.mem (s2.sp - 2 * (wordSize : Int)) s2.rctx }
  let s4 := { s3 with rstack_size := s3.mem (s3.rctx + p.stack_args_bytes) }
  { s4 with
    sp := s4.sp - (roundStackSize s4.rstack_size.toNat p.stack_alignment_bytes : Int) }

/-- The reload after the native call:
`ldr(Rctx, Address(rfp, -2 * wordSize))` ("Might have clobbered Rctx"). -/
def reloadCtx (s : AdapterState) : AdapterState :=
  { s with rctx := s.mem (s.rfp - 2 * (wordSize : Int)) }

/-- A location handle ("in register X" or "at stack offset Y"),
represented as a natural number; distinct handles compare unequal. -/
abbrev Loc := Nat

/-- The source locations of a pending assignment list. -/
def srcsOf (ps : List (Loc × Loc)) : List Loc := ps.map Prod.fst

/-- The destination locations of a pending assignment list. -/
def dstsOf (ps : List (Loc × Loc)) : List Loc := ps.map Prod.snd

/-- Modelled from the spec: the Argument Shuffle Planner's choice of a
non-conflicting move — one whose destination is not read as the source of
any pending move, so emitting it first corrupts nothing ("Emit
non-conflicting moves in any order").  The planner's source
(`ArgumentShuffle`) is not part of this repository snapshot; only its
construction and its `generate` call site are. -/
def pickFree (ps : List (Loc × Loc)) : Option (Loc × Loc) :=
  ps.find? fun p => !(srcsOf ps).contains p.2

/-- Modelled from the spec: the planner loop (§4.1).  While some pending
move is non-conflicting, emit it; otherwise every pending destination is
also a pending source (a cycle), and the first pending move is broken
through the scratch location ("break each cycle by routing one edge
through the scratch location: store src into scratch, perform the
remaining chain, then move scratch into the final destination").
`fuel` bounds the recursion and is instantiated large enough by `plan`. -/
def planAux (scratch : Loc) : Nat → List (Loc × Loc) → List (Loc × Loc)
  | 0, _ => []
  | _ + 1, [] => []
  | fuel + 1, q :: rest =>
    match pickFree (q :: rest) with
    | some p => p :: planAux scratch fuel ((q :: rest).erase p)
    | none => (q.1, scratch) :: planAux scratch fuel ((scratch, q.2) :: rest)

/-- Fuel sufficient for `planAux`: breaking a cycle keeps the list length
but replaces a non-scratch source by the scratch location, and emitting a
move shortens the list. -/
def planFuel (scratch : Loc) (ps : List (Loc × Loc)) : Nat :=
  2 * ps.length + (ps.filter fun p => p.1 != scratch).length

/-- Modelled from the spec: the Move Program produced by the Argument
Shuffle Planner for an assignment list.  "A destination location equal to
its source location is emitted as a no-op, not an instruction", so such
pairs are dropped before planning. -/
def plan (ps : List (Loc × Loc)) (scratch : Loc) : List (Loc × Loc) :=
  planAux scratch (planFuel scratch (ps.filter fun p => p.1 != p.2))
    (ps.filter fun p => p.1 != p.2)

/-- Sequential execution of a move program against a simulated
register/stack file: each move copies the current value of its source
location into its destination location. -/
def execMoves (ms : List (Loc × Loc)) (st : Loc → Int) : Loc → Int :=
  ms.foldl (fun f m => Function.update f m.2 (f m.1)) st

theorem pickFree_mem {ps : List (Loc × Loc)} {p : Loc × Loc}
    (h : pickFree ps = some p) : p ∈ ps :=
  List.mem_of_find?_eq_some h

theorem pickFree_not_src {ps : List (Loc × Loc)} {p : Loc × Loc}
    (h : pickFree ps = some p) : p.2 ∉ srcsOf ps := by
  have := List.find?_some h
  simpa using this

theorem pickFree_none {ps : List (Loc × Loc)} (h : pickFree ps = none) :
    ∀ p ∈ ps, p.2 ∈ srcsOf ps := by
  intro p hp
  have := List.find?_eq_none.mp h p hp
  simpa using this

theorem mem_of_subset_of_length (A B : List Nat) (hA : A.Nodup) (hB : B.Nodup)
    (hlen : B.length ≤ A.length) (hsub : ∀ x ∈ A, x ∈ B) : ∀ x ∈ B, x ∈ A := by
  have h1 : A.toFinset ⊆ B.toFinset := by
    intro y hy
    rw [List.mem_toFinset] at hy ⊢
    exact hsub y hy
  have hcardA : A.toFinset.card = A.length := List.toFinset_card_of_nodup hA
  have hcardB : B.toFinset.card = B.length := List.toFinset_card_of_nodup hB
  have h2 : A.toFinset = B.toFinset :=
    Finset.eq_of_subset_of_card_le h1 (by omega)
  intro x hx
  have : x ∈ A.toFinset := by
    rw [h2, List.mem_toFinset]; exact hx
  rwa [List.mem_toFinset] at this

theorem erase_eq_decEq (l : List (Loc × Loc)) (p : Loc × Loc) :
    l.erase p = @List.erase _ instBEqOfDecidableEq l p := by
  induction l with
  | nil => rfl
  | cons q rest ih =>
    rw [List.erase_cons, @List.erase_cons _ instBEqOfDecidableEq, ih]
    by_cases h : q = p <;> simp [h, instBEqOfDecidableEq]

theorem planAux_correct (scratch : Loc) : ∀ fuel ps (st : Loc → Int),
    planFuel scratch ps ≤ fuel →
    (dstsOf ps).Nodup → (srcsOf ps).Nodup → scratch ∉ dstsOf ps →
    (∀ p ∈ ps, execMoves (planAux scratch fuel ps) st p.2 = st p.1) ∧
    (∀ l, l ∉ dstsOf ps → l ≠ scratch →
      execMoves (planAux scratch fuel ps) st l = st l) := by
  intro fuel
  induction fuel with
  | zero =>
    intro ps st hfuel _ _ _
    have hps : ps = [] := by
      cases ps with
      | nil => rfl
      | cons q rest =>
        exfalso
        unfold planFuel at hfuel
        simp only [List.length_cons] at hfuel
        omega
    subst hps
    exact ⟨fun p hp => absurd hp (List.not_mem_nil p), fun _ _ _ => rfl⟩
  | succ fuel ih =>
    intro ps st hfuel hd hs hsc
    match ps with
    | [] => exact ⟨fun p hp => absurd hp (List.not_mem_nil p), fun _ _ _ => rfl⟩
    | q :: rest =>
      cases hpf : pickFree (q :: rest) with
      | some p =>
        have hpmem : p ∈ q :: rest := pickFree_mem hpf
        have hpns : p.2 ∉ srcsOf (q :: rest) := pickFree_not_src hpf
        have hperm : List.Perm (q :: rest) (p :: (q :: rest).erase p) := by
          rw [erase_eq_decEq]
          exact List.perm_cons_erase hpmem
        have hdperm : List.Perm (dstsOf (q :: rest)) (p.2 :: dstsOf ((q :: rest).erase p)) := by
          simpa [dstsOf] using hperm.map Prod.snd
        have hsperm : List.Perm (srcsOf (q :: rest)) (p.1 :: srcsOf ((q :: rest).erase p)) := by
          simpa [srcsOf] using hperm.map Prod.fst
        have hd' : (p.2 :: dstsOf ((q :: rest).erase p)).Nodup :=
          hdperm.nodup_iff.mp hd
        have hdE : (dstsOf ((q :: rest).erase p)).Nodup := (List.nodup_cons.mp hd').2
        have hp2notE : p.2 ∉ dstsOf ((q :: rest).erase p) := (List.nodup_cons.mp hd').1
        have hsE : (srcsOf ((q :: rest).erase p)).Nodup :=
          (List.nodup_cons.mp (hsperm.nodup_iff.mp hs)).2
        have hscE : scratch ∉ dstsOf ((q :: rest).erase p) := fun h =>
          hsc (hdperm.mem_iff.mpr (List.mem_cons_of_mem _ h))
        have hp2in : p.2 ∈ dstsOf (q :: rest) := List.mem_map_of_mem Prod.snd hpmem
        have hp2scr : p.2 ≠ scratch := fun h => hsc (h ▸ hp2in)
        have hfuelE : planFuel scratch ((q :: rest).erase p) ≤ fuel := by
          have hlen : ((q :: rest).erase p).length + 1 = (q :: rest).length := by
            rw [erase_eq_decEq]
            exact List.length_erase_add_one hpmem
          have hfle : List.Sublist
              (((q :: rest).erase p).filter (fun r => r.1 != scratch))
              ((q :: rest).filter (fun r => r.1 != scratch)) :=
            (List.erase_sublist p (q :: rest)).filter _
          have hfle' := hfle.length_le
          unfold planFuel at hfuel ⊢
          omega
        obtain ⟨ihm, ihu⟩ := ih ((q :: rest).erase p)
          (Function.update st p.2 (st p.1)) hfuelE hdE hsE hscE
        have hstep : planAux scratch (fuel + 1) (q :: rest)
            = p :: planAux scratch fuel ((q :: rest).erase p) := by
          rw [planAux, hpf]
        have hexec : ∀ l, execMoves (planAux scratch (fuel + 1) (q :: rest)) st l
            = execMoves (planAux scratch fuel ((q :: rest).erase p))
                (Function.update st p.2 (st p.1)) l := by
          intro l
          rw [hstep]
          rfl
        constructor
        · intro r hr
          rw [hexec]
          rcases List.mem_cons.mp (hperm.mem_iff.mp hr) with hrp | hrE
          · subst hrp
            rw [ihu r.2 hp2notE hp2scr, Function.update_same]
          · have hr1 : r.1 ≠ p.2 := fun h =>
              hpns (h ▸ List.mem_map_of_mem Prod.fst (hperm.mem_iff.mpr
                (List.mem_cons_of_mem _ hrE)))
            have hr2 : r.2 ∈ dstsOf ((q :: rest).erase p) :=
              List.mem_map_of_mem Prod.snd hrE
            rw [ihm r hrE, Function.update_noteq hr1]
        · intro l hl hlsc
          have hlE : l ∉ dstsOf ((q :: rest).erase p) := fun h =>
            hl (hdperm.mem_iff.mpr (List.mem_cons_of_mem _ h))
          have hlp2 : l ≠ p.2 := fun h => hl (h ▸ hp2in)
          rw [hexec, ihu l hlE hlsc, Function.update_noteq hlp2]
      | none =>
        have hall : ∀ r ∈ q :: rest, r.2 ∈ srcsOf (q :: rest) := pickFree_none hpf
        have hsub : ∀ x ∈ dstsOf (q :: rest), x ∈ srcsOf (q :: rest) := by
          intro x hx
          obtain ⟨r, hr, hrx⟩ := List.mem_map.mp hx
          exact hrx ▸ hall r hr
        have hlen : (srcsOf (q :: rest)).length ≤ (dstsOf (q :: rest)).length := by
          simp [srcsOf, dstsOf]
        have hback : ∀ x ∈ srcsOf (q :: rest), x ∈ dstsOf (q :: rest) :=
          mem_of_subset_of_length _ _ hd hs hlen hsub
        have hscs : scratch ∉ srcsOf (q :: rest) := fun h => hsc (hback scratch h)
        have hq1 : q.1 ∈ srcsOf (q :: rest) :=
          List.mem_map_of_mem Prod.fst (List.mem_cons_self q rest)
        have hq1scr : q.1 ≠ scratch := fun h => hscs (h ▸ hq1)
        have hdeq : dstsOf ((scratch, q.2) :: rest) = dstsOf (q :: rest) := rfl
        have hd2 : (dstsOf ((scratch, q.2) :: rest)).Nodup := by rw [hdeq]; exact hd
        have hs2 : (srcsOf ((scratch, q.2) :: rest)).Nodup := by
          show (scratch :: srcsOf rest).Nodup
          refine List.nodup_cons.mpr ⟨fun h => hscs (List.mem_cons_of_mem _ h), ?_⟩
          exact (List.nodup_cons.mp hs).2
        have hsc2 : scratch ∉ dstsOf ((scratch, q.2) :: rest) := by
          rw [hdeq]; exact hsc
        have hfuel2 : planFuel scratch ((scratch, q.2) :: rest) ≤ fuel := by
          unfold planFuel at hfuel ⊢
          have h1 : (q :: rest).filter (fun r => r.1 != scratch)
              = q :: rest.filter (fun r => r.1 != scratch) := by
            rw [List.filter_cons_of_pos]
            simpa using hq1scr
          have h2 : ((scratch, q.2) :: rest).filter (fun r => r.1 != scratch)
              = rest.filter (fun r => r.1 != scratch) := by
            rw [List.filter_cons_of_neg]
            simp
          rw [h1] at hfuel
          rw [h2]
          simp only [List.length_cons] at hfuel ⊢
          omega
        obtain ⟨ihm, ihu⟩ := ih ((scratch, q.2) :: rest)
          (Function.update st scratch (st q.1)) hfuel2 hd2 hs2 hsc2
        have hstep : planAux scratch (fuel + 1) (q :: rest)
            = (q.1, scratch) :: planAux scratch fuel ((scratch, q.2) :: rest) := by
          rw [planAux, hpf]
        have hexec : ∀ l, execMoves (planAux scratch (fuel + 1) (q :: rest)) st l
            = execMoves (planAux scratch fuel ((scratch, q.2) :: rest))
                (Function.update st scratch (st q.1)) l := by
          intro l
          rw [hstep]
          rfl
        constructor
        · intro r hr
          rw [hexec]
          rcases List.mem_cons.mp hr with hrq | hrR
          · subst hrq
            have := ihm (scratch, r.2) (List.mem_cons_self _ _)
            rw [this, Function.update_same]
          · have hr1 : r.1 ≠ scratch := fun h =>
              hscs (h ▸ List.mem_map_of_mem Prod.fst (List.mem_cons_of_mem _ hrR))
            have := ihm r (List.mem_cons_of_mem _ hrR)
            rw [this, Function.update_noteq hr1]
        · intro l hl hlsc
          have hl2 : l ∉ dstsOf ((scratch, q.2) :: rest) := by rw [hdeq]; exact hl
          rw [hexec, ihu l hl2 hlsc, Function.update_noteq hlsc]

theorem plan_correct_aux (ps : List (Loc × Loc)) (scratch : Loc) (st : Loc → Int)
    (hd : (dstsOf ps).Nodup) (hs : (srcsOf ps).Nodup)
    (hscd : scratch ∉ dstsOf ps) :
    ∀ p ∈ ps, execMoves (plan ps scratch) st p.2 = st p.1 := by
  have hfl : List.Sublist (ps.filter fun r => r.1 != r.2) ps := List.filter_sublist ps
  have hdf : (dstsOf (ps.filter fun r => r.1 != r.2)).Nodup :=
    (hfl.map Prod.snd).nodup hd
  have hsf : (srcsOf (ps.filter fun r => r.1 != r.2)).Nodup :=
    (hfl.map Prod.fst).nodup hs
  have hscf : scratch ∉ dstsOf (ps.filter fun r => r.1 != r.2) := fun h =>
    hscd ((hfl.map Prod.snd).subset h)
  obtain ⟨hm, hu⟩ := planAux_correct scratch
    (planFuel scratch (ps.filter fun r => r.1 != r.2))
    (ps.filter fun r => r.1 != r.2) st le_rfl hdf hsf hscf
  intro p hp
  by_cases hpq : p.1 = p.2
  · have hnot : p.2 ∉ dstsOf (ps.filter fun r => r.1 != r.2) := by
      intro h
      obtain ⟨r, hr, hr2⟩ := List.mem_map.mp h
      have hrps : r ∈ ps := hfl.subset hr
      have hrne : r.1 ≠ r.2 := by
        have := (List.mem_filter.mp hr).2
        simpa using this
      have hreq : r = p :=
        List.inj_on_of_nodup_map hd hrps hp hr2
      exact hrne (by rw [hreq]; exact hpq)
    have hp2scr : p.2 ≠ scratch := fun h =>
      hscd (h ▸ List.mem_map_of_mem Prod.snd hp)
    rw [plan, hu p.2 hnot hp2scr, hpq]
  · have hpf : p ∈ ps.filter fun r => r.1 != r.2 :=
      List.mem_filter.mpr ⟨hp, by simpa using hpq⟩
    exact hm p hpf

/-! Claim theorems. -/

/-- C1: for every argument list and every pair of source/destination
calling conventions — per-argument source locations pairwise distinct,
destination locations pairwise distinct, and the designated scratch
location distinct from all of them, including assignments requiring
cyclic resolution — executing the emitted move program leaves every
destination location holding exactly the value originally held by its
mapped source location (simultaneous-assignment semantics: no move
overwrites a value before a later move consumes it). -/
theorem C1_shuffle_simultaneous_assignment (ps : List (Loc × Loc)) (scratch : Loc)
    (st : Loc → Int)
    (hd : (dstsOf ps).Nodup) (hs : (srcsOf ps).Nodup)
    (hscd : scratch ∉ dstsOf ps) (hscs : scratch ∉ srcsOf ps) :
    ∀ p ∈ ps, execMoves (plan ps scratch) st p.2 = st p.1 :=
  plan_correct_aux ps scratch st hd hs hscd

/-- Witness for C1 at the cyclic swap `0 ↔ 1` with scratch location `2`. -/
theorem C1_shuffle_simultaneous_assignment_witness :
    (dstsOf [(0, 1), (1, 0)]).Nodup ∧
    execMoves (plan [(0, 1), (1, 0)] 2) (fun l => (l : Int) + 10) 1 = 0 + 10 ∧
    execMoves (plan [(0, 1), (1, 0)] 2) (fun l => (l : Int) + 10) 0 = 1 + 10 :=
  ⟨by decide,
   C1_shuffle_simultaneous_assignment [(0, 1), (1, 0)] 2 (fun l => (l : Int) + 10)
     (by decide) (by decide) (by decide) (by decide) (0, 1) (by decide),
   C1_shuffle_simultaneous_assignment [(0, 1), (1, 0)] 2 (fun l => (l : Int) + 10)
     (by decide) (by decide) (by decide) (by decide) (1, 0) (by decide)⟩

/-- C2: in the emitted downcall stub the publication of the
last-known-managed-frame triple precedes the store that marks the
execution state native; that state store is release-ordered (and is the
only native-state store); and the triple is cleared only after the state
is stored back as managed (also a release-ordered store). -/
theorem C2_frame_published_before_native_store :
    genTrace.findIdx Ev.isPublishFrame < genTrace.findIdx Ev.isNativeStore ∧
    genTrace.filter Ev.isNativeStore = [.threadStateStore .inNative true] ∧
    (genTrace.filter Ev.isPublishFrame).length = 1 ∧
    genTrace.findIdx Ev.isJavaStore < genTrace.findIdx Ev.isResetFrame ∧
    genTrace.filter Ev.isJavaStore = [.threadStateStore .inJava true] ∧
    genTrace.filter Ev.isResetFrame = [.resetLastJavaFrame] := by
  decide

/-- C3 counterexample: for a declared stack-argument byte count of 17 the
copy loop runs `17 >> 3 = 2` iterations, so the whole-word copies cover
only 16 bytes — not at least 17 — and the third source word (holding the
17th byte) is never copied to the destination area. -/
theorem C3_counterexample :
    wordSize * wordsFor 17 = 16 ∧ ¬ 17 ≤ wordSize * wordsFor 17 ∧
    copyLoop (wordsFor 17) 0 100 (fun a => if a = 2 then 42 else 0) 102 ≠
      (fun a : Nat => if a = 2 then (42 : Nat) else 0) 2 := by
  decide

/-- C3 (amended): the forward copy loop copies the stack-argument block
word by word onto the reserved area, terminating when the remaining word
count reaches zero; it copies exactly `count >> log2(wordSize)` whole
words, so the copies cover the declared byte count rounded DOWN to a
word multiple — the full declared region exactly when the count is a
multiple of the word size; for a declared count of 17 only the first 16
bytes are copied. -/
theorem C3_copy_loop_floor (n srcPtr dstPtr : Nat) (mem : Nat → Nat)
    (hdisj : dstPtr + wordsFor n ≤ srcPtr ∨ srcPtr + wordsFor n ≤ dstPtr) :
    (∀ j < wordsFor n,
      copyLoop (wordsFor n) srcPtr dstPtr mem (dstPtr + j) = mem (srcPtr + j)) ∧
    wordSize * wordsFor n = n - n % wordSize := by
  refine ⟨(copyLoop_spec (wordsFor n) srcPtr dstPtr mem hdisj).1, ?_⟩
  show 8 * (n >>> 3) = n - n % 8
  rw [Nat.shiftRight_eq_div_pow]
  have h : (2:Nat) ^ 3 = 8 := by norm_num
  rw [h]
  omega

/-- Witness for C3 (amended) at count 16 into a disjoint region. -/
theorem C3_copy_loop_floor_witness :
    (100 + wordsFor 16 ≤ 0 ∨ 0 + wordsFor 16 ≤ 100) ∧
    copyLoop (wordsFor 16) 0 100 (fun a => a + 7) (100 + 1) =
      (fun a => a + 7) (0 + 1) :=
  ⟨Or.inr (by decide),
   (C3_copy_loop_floor 16 0 100 (fun a => a + 7) (Or.inr (by decide))).1 1 (by decide)⟩

/-- C4: the total frame size is the base frame plus the spiller's region
plus the shuffle's out-argument stack slots, rounded up to alignment (4
four-byte slots, i.e. 16 bytes), so the resulting stack-pointer
adjustment is 16-byte aligned for every spill size and slot count (the
generation-time assertion `is_even(_framesize/2)` holds); and for a
signature with zero arguments and a void return — no spill region, no
out-argument slots — it equals exactly the base frame. -/
theorem C4_frame_size_alignment (spillSizeBytes outArgStackSlots : Nat) :
    totalFrameSlots spillSizeBytes outArgStackSlots % 4 = 0 ∧
    (totalFrameSlots spillSizeBytes outArgStackSlots * 4) % 16 = 0 ∧
    Even (totalFrameSlots spillSizeBytes outArgStackSlots / 2) ∧
    totalFrameSlots 0 0 = baseFrameSlots := by
  obtain ⟨m, hm⟩ := align_up_dvd
    (baseFrameSlots + (spillSizeBytes >>> logBytesPerInt) + outArgStackSlots) 4
  refine ⟨?_, ?_, ?_, by decide⟩
  · rw [totalFrameSlots, hm]
    omega
  · rw [totalFrameSlots, hm]
    omega
  · rw [totalFrameSlots, hm]
    exact ⟨m, by omega⟩

/-- C5: after the native call the raw return value in `r0` is adjusted by
the declared return type: boolean normalized to 0/1 from its low byte,
char zero-extended from 16 bits, byte/short/int sign-extended from
8/16/32 bits to the full register width (the two's-complement value is
preserved), floating-point results left in place (`r0` untouched), void
and full-width long unadjusted, and every other declared return type
fatal (`ShouldNotReachHere`). -/
theorem C5_return_value_adjustment (v : Nat) :
    adjustReturn .t_boolean v = some (if v % 2 ^ 8 = 0 then 0 else 1) ∧
    adjustReturn .t_char v = some (v % 2 ^ 16) ∧
    (∃ r, adjustReturn .t_byte v = some r ∧ asSigned 64 r = asSigned 8 v) ∧
    (∃ r, adjustReturn .t_short v = some r ∧ asSigned 64 r = asSigned 16 v) ∧
    (∃ r, adjustReturn .t_int v = some r ∧ asSigned 64 r = asSigned 32 v) ∧
    adjustReturn .t_float v = some v ∧
    adjustReturn .t_double v = some v ∧
    adjustReturn .t_void v = some v ∧
    adjustReturn .t_long v = some v ∧
    adjustReturn .t_object v = none ∧
    adjustReturn .t_array v = none ∧
    adjustReturn .t_address v = none :=
  ⟨rfl, rfl,
   ⟨sbfx 8 v, rfl, asSigned_sbfx 8 v (by norm_num) (by norm_num)⟩,
   ⟨sbfx 16 v, rfl, asSigned_sbfx 16 v (by norm_num) (by norm_num)⟩,
   ⟨sbfx 32 v, rfl, asSigned_sbfx 32 v (by norm_num) (by norm_num)⟩,
   rfl, rfl, rfl, rfl, rfl, rfl, rfl⟩

/-- C6: construction of the downcall generator accepts the
output-register list exactly when it has length zero or one, or length
two with an invalid second entry; every other list — in particular any
describing more than one return-value location — trips the
construction-time assertion. -/
theorem C6_no_multi_register_returns (rs : List VMRegM) :
    outputRegistersOk rs = true ↔
      (rs.length = 0 ∨ rs.length = 1 ∨
        (rs.length = 2 ∧ (rs.getD 1 .bad).valid = false)) := by
  simp only [outputRegistersOk, Bool.or_eq_true, Bool.and_eq_true,
    decide_eq_true_eq, beq_iff_eq, Bool.not_eq_true']
  constructor
  · rintro (h | ⟨h1, h2⟩)
    · omega
    · tauto
  · rintro (h | h | ⟨h1, h2⟩) <;> simp_all

/-- C7: the adapter stub reserves, before copying stack arguments,
exactly the declared stack-argument byte count rounded up to the ABI's
power-of-two stack alignment: the emitted computation
`(count + alignment - 1) & -alignment` (64-bit two's complement) equals
`align_up(count, alignment)`. -/
theorem C7_stack_reservation_rounding (c k : Nat) (hk : k ≤ 64)
    (hc : c + 2 ^ k ≤ 2 ^ 64) :
    roundStackSize c (2 ^ k) = align_up c (2 ^ k) := by
  have hkpos : (0:Nat) < 2 ^ k := Nat.pos_pow_of_pos k (by norm_num)
  have h1 : c + (2 ^ k - 1) = c + 2 ^ k - 1 := by omega
  have h2 : c + 2 ^ k - 1 < 2 ^ 64 := by omega
  have h3 : (2 ^ 64 - 2 ^ k) % 2 ^ 64 = 2 ^ 64 - 2 ^ k := by
    apply Nat.mod_eq_of_lt
    have : (0:Nat) < 2 ^ 64 := by positivity
    omega
  rw [roundStackSize, h1, Nat.mod_eq_of_lt h2, h3,
    land_note k (c + 2 ^ k - 1) hk h2, align_up]
  rw [Nat.mul_comm]

/-- Witness for C7: declared count 17 with 16-byte alignment reserves
exactly 32 bytes. -/
theorem C7_stack_reservation_rounding_witness :
    (4 ≤ 64 ∧ 17 + 2 ^ 4 ≤ 2 ^ 64) ∧
    roundStackSize 17 (2 ^ 4) = align_up 17 (2 ^ 4) ∧
    align_up 17 (2 ^ 4) = 32 :=
  ⟨⟨by norm_num, by norm_num⟩,
   C7_stack_reservation_rounding 17 4 (by norm_num) (by norm_num),
   by decide⟩

/-- C8: each slow path of the downcall stub spills the return-value
locations to the spill region at the fixed offset, invokes exactly one
external service — check-special-condition with the current thread as its
single argument on the suspension path, reguard-stack-pages on the
reguard path — refills the return-value locations from the same offset,
and branches back to the managed-state transition resp. to immediately
after the reguard check; and a spill immediately refilled at the same
offset restores every return-value location, so the detour preserves
their values. -/
theorem C8_slow_path_detours :
    List.IsInfix
      [Ev.bindLabel .safepointSlow, .spill spill_offset, .movArg0Thread,
       .callRuntime .checkSpecialConditionForNativeTrans, .fill spill_offset,
       .branch .afterSafepointPoll] genTrace ∧
    List.IsInfix
      [Ev.bindLabel .reguard, .spill spill_offset,
       .callRuntime .reguardYellowPages, .fill spill_offset,
       .branch .afterReguard] genTrace ∧
    List.IsInfix
      [Ev.bindLabel .afterSafepointPoll, .threadStateStore .inJava true]
      genTrace ∧
    List.IsInfix [Ev.stackGuardBranch .reguard, .bindLabel .afterReguard]
      genTrace ∧
    (genTrace.filter fun e => e matches .callRuntime _).length = 2 ∧
    (genTrace.filter fun e => e matches .spill _).length = 2 ∧
    (genTrace.filter fun e => e matches .fill _).length = 2 ∧
    ∀ rs o regs frame, fillRegs rs o regs (spillRegs rs o regs frame) = regs :=
  ⟨by decide, by decide, by decide, by decide, by decide, by decide, by decide,
   fill_spill_roundtrip⟩

/-- C9: the adapter stub stores the incoming context-record address into
the frame slot two words below the frame pointer before the native call
and reloads it from that same slot afterwards; hence for every callee
that preserves the (callee-saved) frame pointer and that frame slot —
even one clobbering every caller-save register — the reloaded value used
for the return-register stores equals the address originally passed as
the stub's sole argument. -/
theorem C9_ctx_survives_call (p : AdapterParams) (s0 : AdapterState)
    (callee : AdapterState → AdapterState)
    (hrfp : (callee (adapterPrologue p s0)).rfp = (adapterPrologue p s0).rfp)
    (hmem : (callee (adapterPrologue p s0)).mem
        ((adapterPrologue p s0).rfp - 2 * (wordSize : Int))
      = (adapterPrologue p s0).mem
        ((adapterPrologue p s0).rfp - 2 * (wordSize : Int))) :
    (reloadCtx (callee (adapterPrologue p s0))).rctx = s0.c_rarg0 := by
  show (callee (adapterPrologue p s0)).mem
      ((callee (adapterPrologue p s0)).rfp - 2 * (wordSize : Int)) = s0.c_rarg0
  rw [hrfp, hmem]
  simp only [adapterPrologue, enterStep, wordSize]
  norm_num

/-- Witness for C9 with a callee that clobbers the context register. -/
theorem C9_ctx_survives_call_witness :
    (reloadCtx ((fun t => { t with rctx := -5 })
      (adapterPrologue ⟨0, 16⟩ ⟨77, 0, 0, 1000, 500, 9, fun _ => 0⟩))).rctx = 77 :=
  C9_ctx_survives_call ⟨0, 16⟩ ⟨77, 0, 0, 1000, 500, 9, fun _ => 0⟩
    (fun t => { t with rctx := -5 }) rfl rfl

/-- C10: the downcall generator's root-map set contains exactly one gc
map, it is keyed at the code offset recorded as the
last-known-managed-frame program counter, and it is empty — no frame
slot of the stub is reported to the collector as holding a live managed
reference. -/
theorem C10_single_empty_gc_map :
    gcMaps.length = 1 ∧ publishedPcs.length = 1 ∧
    gcMaps = publishedPcs.map fun o => (o, []) := by
  decide

end UNI
